import Mathlib

/-!
Verification of the core of `analyzer.py` (disk-analyzer): a shallow
embedding of the recursive directory-sizing walker (`scan_directory`),
the two size estimators (`get_size_with_du`, `get_folder_size_walk`),
and the tree flattener (`flatten_tree`), together with proofs of the
specified invariants.

Modelling conventions:
* A filesystem object is the inductive `FS`; directory entries are the
  association list produced by `os.listdir` (name, object).  The outcome
  of the external `du -sk` invocation and the outcome of `os.listdir`
  are recorded on each directory node, since both are inputs of the
  program, not things it computes.
* Absolute paths are lists of path components (the root `/` is `[]`);
  `os.path.join(path, entry)` is `p ++ [e]` and `os.path.basename` is
  the last component.  The paths handed to the scanner are already
  absolute and normalised (`main` calls `os.path.abspath`), so
  `os.path.abspath` is the identity on them.
* Python exceptions that escape a function are modelled with
  `Except Unit`; fallible OS primitives whose failure is absorbed
  locally (e.g. `os.path.getsize`) carry their failure case in `FS`.
* `list.sort(key=..., reverse=True)` is a stable descending sort; it is
  modelled by the (also stable) `List.insertionSort` with the relation
  `sizeGe`.  Stable descending sorts agree on their output.
* Scanning a path whose final component is itself a symbolic link is
  outside the model (the walker never recurses into symlinks, and the
  claims only concern symlinks met as directory entries).
* The `print` progress logging has no effect on the returned tree and
  is dropped.
-/

namespace DiskAnalyzer

/-- Outcome of the `subprocess.run(["du", "-sk", path], ..., timeout=30)`
invocation in `get_size_with_du` (analyzer.py lines 46-52):
* `raisedOS`: `subprocess.run` raised an `OSError` (e.g.
  `FileNotFoundError` because the `du` executable is missing).  This
  class is *not* in the `except` tuple of line 56.
* `timeout`: `subprocess.TimeoutExpired` was raised (caught).
* `completed rc tok`: the process finished with return code `rc`;
  `tok` is the leading whitespace token of its stdout parsed by `int`
  (`none` when stdout has no token — `IndexError` — or the token is not
  a number — `ValueError`; both caught).  A successful `du -sk` prints a
  non-negative kilobyte count, hence `Nat`. -/
inductive DuOutcome where
  | raisedOS
  | timeout
  | completed (returncode : Int) (firstTok : Option Nat)
deriving DecidableEq

/-- `get_size_with_du` (analyzer.py lines 44-58).  Returns the parsed
kilobyte count times 1024 when the process exited with code 0 and its
output parsed; returns 0 on timeout, parse failure, or a non-zero exit
code; propagates (`Except.error`) an `OSError` raised by
`subprocess.run` itself, since that class is not caught. -/
def get_size_with_du : DuOutcome → Except Unit Nat
  | .raisedOS => .error ()
  | .timeout => .ok 0
  | .completed rc tok =>
    if rc = 0 then
      match tok with
      | some size_kb => .ok (size_kb * 1024)
      | none => .ok 0
    else .ok 0

/-- Outcome of `os.listdir(path)` for a directory (analyzer.py lines
124-133): success, `PermissionError`, or any other `OSError`. -/
inductive LErr where
  | ok
  | permissionError
  | otherError
deriving DecidableEq

/-- A filesystem object as the program observes it:
* `file sz` — a regular file; `sz = none` means `os.path.getsize`
  raises `OSError` on it (vanished/unreadable), otherwise its byte size;
* `symlink` — a symbolic link (never followed by the program);
* `dir du lerr entries` — a directory together with the outcome `du` of
  running `du -sk` on it, the outcome `lerr` of `os.listdir`, and its
  entry list (meaningful when `lerr = .ok`). -/
inductive FS where
  | file (sz : Option Nat)
  | symlink
  | dir (du : DuOutcome) (lerr : LErr) (entries : List (String × FS))

/-- `os.path.islink`. -/
def islink : FS → Bool
  | .symlink => true
  | _ => false

/-- `os.path.isdir` (on the objects the walker meets: entries that are
not symlinks). -/
def isdir : FS → Bool
  | .dir _ _ _ => true
  | _ => false

/-- `get_file_size` (analyzer.py lines 61-66): `os.path.getsize` with
`OSError` absorbed to 0. -/
def get_file_size : FS → Nat
  | .file (some s) => s
  | _ => 0

mutual

/-- Per-entry contribution of the `os.walk` loop in
`get_folder_size_walk` (analyzer.py lines 73-80): regular files
contribute their size (`OSError` on `getsize` skipped), symbolic links
are skipped by the `islink` check (symlinks to directories are not
descended into since `followlinks` is false), and subdirectories
contribute their own walk total (a listing error at any level silently
drops just that subtree, `os.walk`'s `onerror=None` behaviour). -/
def walkEntry : FS → Nat
  | .file sz => get_file_size (.file sz)
  | .symlink => 0
  | .dir _ lerr es => if lerr = .ok then walkFiles es else 0

/-- Sum of the walk contributions of a directory's entries.  Note that
`os.walk` does not filter hidden names. -/
def walkFiles : List (String × FS) → Nat
  | [] => 0
  | (_, c) :: rest => walkEntry c + walkFiles rest

end

/-- `get_folder_size_walk` (analyzer.py lines 69-83): sum the sizes of
every regular file reachable from `path` by `os.walk`, skipping
symlinks, absorbing every error.  `os.walk` of a non-directory yields
nothing, hence 0. -/
def get_folder_size_walk : FS → Nat
  | .file _ => 0
  | .symlink => 0
  | .dir _ lerr es => if lerr = .ok then walkFiles es else 0

/-- Rendering of a component-list path as the absolute path string. -/
def pathStr (p : List String) : String := "/" ++ String.intercalate "/" p

/-- `os.path.basename` on a component-list path. -/
def basename (p : List String) : String := (p.getLast?).getD ""

/-- `name = os.path.basename(path) or path` (analyzer.py line 93): the
final component, falling back to the whole path when the basename is
the empty string (the filesystem root). -/
def nodeName (p : List String) : String :=
  if basename p = "" then pathStr p else basename p

/-- `entry.startswith('.')` (analyzer.py line 136), written on the
character list so that it evaluates by kernel reduction. -/
def startsWithDot (e : String) : Bool :=
  match e.data with
  | [] => false
  | ch :: _ => ch = '.'

/-- The tree the scanner returns (the JSON schema of analyzer.py lines
5-20): file dicts have no `children` key, directory dicts always carry
one (possibly empty). -/
inductive TreeNode where
  | file (name : String) (path : List String) (size : Nat)
  | dir (name : String) (path : List String) (size : Nat) (children : List TreeNode)

/-- The `size` field of a node. -/
def TreeNode.size : TreeNode → Nat
  | .file _ _ s => s
  | .dir _ _ s _ => s

/-- The `name` field of a node. -/
def TreeNode.name : TreeNode → String
  | .file n _ _ => n
  | .dir n _ _ _ => n

/-- The `path` field of a node. -/
def TreeNode.path : TreeNode → List String
  | .file _ p _ => p
  | .dir _ p _ _ => p

/-- The `children` list of a node (file dicts have none, read as `[]`). -/
def TreeNode.children : TreeNode → List TreeNode
  | .file _ _ _ => []
  | .dir _ _ _ cs => cs

/-- The `type` field of a node: `"dir"` or `"file"`. -/
def TreeNode.kindStr : TreeNode → String
  | .file _ _ _ => "file"
  | .dir _ _ _ _ => "dir"

/-- Ordering used by `children.sort(key=lambda x: x["size"], reverse=True)`
(analyzer.py line 169): `a` may precede `b` iff `b.size ≤ a.size`. -/
def sizeGe (a b : TreeNode) : Prop := b.size ≤ a.size

instance : DecidableRel sizeGe := fun a b =>
  inferInstanceAs (Decidable (b.size ≤ a.size))

instance : IsTotal TreeNode sizeGe :=
  ⟨fun a b => Or.symm (Nat.le_total a.size b.size)⟩

instance : IsTrans TreeNode sizeGe := ⟨fun _ _ _ h h2 => Nat.le_trans h2 h⟩

/-- The stable descending sort of the children list (analyzer.py line
169).  Python's sort is stable; so is `List.insertionSort`, and any two
stable descending sorts agree. -/
def sortBySizeDesc (l : List TreeNode) : List TreeNode := List.insertionSort sizeGe l

/-- The accumulated `total_size` (analyzer.py lines 139, 164): the sum
of the sizes of the retained children. -/
def sumSizes (l : List TreeNode) : Nat := (l.map TreeNode.size).sum

mutual

/-- `scan_directory` (analyzer.py lines 86-177).  The branches, in
source order: a regular file returns a file node (lines 99-105); at
`current_depth >= max_depth` a directory's size comes from
`get_size_with_du` and no children are enumerated (lines 117-121); a
`PermissionError` from `os.listdir` likewise falls back to
`get_size_with_du` with no children (lines 126-130); any other
`OSError` from the listing returns the node with size 0 and no
children (lines 131-133); otherwise the entries are processed by the
child loop, the size is the children's sum and the children are sorted
by size descending (lines 135-177).  An `OSError` escaping
`get_size_with_du` propagates.  (A symlink is never passed in by the
walker; the case is fixed arbitrarily as a 0-byte file node.) -/
def scan_directory : FS → List String → Nat → Nat → Except Unit TreeNode
  | .file sz, p, _, _ => .ok (.file (nodeName p) p (get_file_size (.file sz)))
  | .symlink, p, _, _ => .ok (.file (nodeName p) p 0)
  | .dir du lerr es, p, max_depth, current_depth =>
    if max_depth ≤ current_depth then
      (get_size_with_du du).map fun s => .dir (nodeName p) p s []
    else
      match lerr with
      | .permissionError => (get_size_with_du du).map fun s => .dir (nodeName p) p s []
      | .otherError => .ok (.dir (nodeName p) p 0 [])
      | .ok =>
        let cs := scanChildren es p max_depth current_depth
        .ok (.dir (nodeName p) p (sumSizes cs) (sortBySizeDesc cs))

/-- The child loop of `scan_directory` (analyzer.py lines 135-166) in
source order: hidden names are filtered out (line 136; filtering before
the loop and skipping inside it traverse the same entries), symlinks
are skipped (lines 148-150), directories are scanned recursively at
`current_depth + 1` (lines 151-153), anything else is read as a file
(lines 154-161); an `OSError` escaping the body — concretely, one
raised by a recursive scan — skips that single entry (lines 165-166).
Returns the retained children in loop order. -/
def scanChildren : List (String × FS) → List String → Nat → Nat → List TreeNode
  | [], _, _, _ => []
  | (e, c) :: rest, p, max_depth, current_depth =>
    if startsWithDot e then scanChildren rest p max_depth current_depth
    else if islink c then scanChildren rest p max_depth current_depth
    else if isdir c then
      match scan_directory c (p ++ [e]) max_depth (current_depth + 1) with
      | .ok t => t :: scanChildren rest p max_depth current_depth
      | .error _ => scanChildren rest p max_depth current_depth
    else
      .file e (p ++ [e]) (get_file_size c) :: scanChildren rest p max_depth current_depth

end

/-- One record of the flattened list (analyzer.py lines 185-190):
`{name, path, size, type}`. -/
structure Item where
  name : String
  path : List String
  size : Nat
  kind : String
deriving DecidableEq

/-- The record `flatten_tree` appends for a node. -/
def TreeNode.record : TreeNode → Item
  | .file n p s => ⟨n, p, s, "file"⟩
  | .dir n p s _ => ⟨n, p, s, "dir"⟩

mutual

/-- `flatten_tree` (analyzer.py lines 180-196): pre-order — the node's
own record first, then the flattening of each child in order (file
dicts have no `children` key, so recursion stops there). -/
def flatten_tree : TreeNode → List Item
  | .file n p s => [TreeNode.record (.file n p s)]
  | .dir n p s cs => TreeNode.record (.dir n p s cs) :: flattenList cs

/-- Concatenation of the flattenings of a list of nodes. -/
def flattenList : List TreeNode → List Item
  | [] => []
  | t :: ts => flatten_tree t ++ flattenList ts

end

mutual

/-- Every node of a tree, in pre-order (specification-side definition,
used to state which nodes a produced tree contains). -/
def allNodes : TreeNode → List TreeNode
  | .file n p s => [.file n p s]
  | .dir n p s cs => .dir n p s cs :: allNodesList cs

/-- Every node of each tree in a list, in order. -/
def allNodesList : List TreeNode → List TreeNode
  | [] => []
  | t :: ts => allNodes t ++ allNodesList ts

end

mutual

/-- Every node of a tree, in post-order (an alternative traversal
order, used to state the traversal-order independence of flattening). -/
def postorder : TreeNode → List TreeNode
  | .file n p s => [.file n p s]
  | .dir n p s cs => postList cs ++ [.dir n p s cs]

/-- Post-order nodes of a list of trees. -/
def postList : List TreeNode → List TreeNode
  | [] => []
  | t :: ts => postorder t ++ postList ts

end

/-- The nodes of a tree at exact depth `j` below its root. -/
def nodesAt : Nat → TreeNode → List TreeNode
  | 0, t => [t]
  | j + 1, t => (t.children.map fun c => nodesAt j c).flatten

/-- The entries of a directory listing that the walker retains: not
hidden and not symbolic links. -/
def validEntryList (es : List (String × FS)) : List FS :=
  (es.filter fun e => !startsWithDot e.1 && !islink e.2).map Prod.snd

/-- The filesystem objects a full enumeration of `fs` would visit as
children: the retained entries of a successfully listed directory. -/
def validChildren : FS → List FS
  | .dir _ .ok es => validEntryList es
  | _ => []

/-- The filesystem objects at exact depth `j` below `fs`, following
only retained entries. -/
def fsNodesAt : Nat → FS → List FS
  | 0, fs => [fs]
  | j + 1, fs => ((validChildren fs).map fun c => fsNodesAt j c).flatten

/-- Per-node size invariant: a directory dict that has children has
`size` equal to the sum of its children's sizes. -/
def dirSumOk : TreeNode → Bool
  | .file _ _ _ => true
  | .dir _ _ s cs => cs.isEmpty || s == sumSizes cs

/-- Adjacent-pair check: the list is non-increasing by `size`. -/
def pairwiseDesc : List TreeNode → Bool
  | [] => true
  | [_] => true
  | a :: b :: r => (decide (TreeNode.size b ≤ TreeNode.size a)) && pairwiseDesc (b :: r)

mutual

/-- An error-free filesystem: every listing succeeds and `du` never
raises (it may still time out or produce garbage). -/
def cleanFS : FS → Bool
  | .file _ => true
  | .symlink => true
  | .dir du lerr es => !(du == .raisedOS) && (lerr == .ok) && cleanEntries es

/-- Cleanness of every entry of a listing. -/
def cleanEntries : List (String × FS) → Bool
  | [] => true
  | (_, c) :: rest => cleanFS c && cleanEntries rest

end

mutual

/-- Well-formed names: every directory entry name is non-empty, as
`os.listdir` guarantees. -/
def wfNames : FS → Bool
  | .file _ => true
  | .symlink => true
  | .dir _ _ es => wfEntries es

/-- Well-formedness of every entry of a listing. -/
def wfEntries : List (String × FS) → Bool
  | [] => true
  | (e, c) :: rest => !(e == "") && wfNames c && wfEntries rest

end

mutual

/-- The filesystem with every symlink entry removed, at every level
(specification-side: used to state that symlinks are treated as
absent). -/
def pruneLinks : FS → FS
  | .file sz => .file sz
  | .symlink => .symlink
  | .dir du lerr es => .dir du lerr (pruneEntries es)

/-- Entry lists with symlink entries dropped and the rest pruned. -/
def pruneEntries : List (String × FS) → List (String × FS)
  | [] => []
  | (e, c) :: rest =>
    if islink c then pruneEntries rest else (e, pruneLinks c) :: pruneEntries rest

end

/-! ### Basic lemmas -/

theorem allNodes_eq (t : TreeNode) : allNodes t = t :: allNodesList t.children := by
  cases t <;> rfl

theorem mem_allNodesList {n : TreeNode} :
    ∀ {l : List TreeNode}, n ∈ allNodesList l ↔ ∃ t ∈ l, n ∈ allNodes t := by
  intro l
  induction l with
  | nil => simp [allNodesList]
  | cons t ts ih => simp [allNodesList, ih]

theorem sortBySizeDesc_perm (l : List TreeNode) : List.Perm (sortBySizeDesc l) l :=
  List.perm_insertionSort sizeGe l

theorem sumSizes_sort (l : List TreeNode) : sumSizes (sortBySizeDesc l) = sumSizes l :=
  ((sortBySizeDesc_perm l).map TreeNode.size).sum_eq

theorem pairwiseDesc_of_sorted :
    ∀ {l : List TreeNode}, List.Sorted sizeGe l → pairwiseDesc l = true
  | [], _ => rfl
  | [_], _ => rfl
  | a :: b :: r, h => by
    have hab : sizeGe a b := (List.sorted_cons.mp h).1 b (List.mem_cons_self b r)
    have ih := pairwiseDesc_of_sorted (List.sorted_cons.mp h).2
    simp only [pairwiseDesc, ih, Bool.and_true, decide_eq_true_eq]
    exact hab

theorem pairwiseDesc_sort (l : List TreeNode) : pairwiseDesc (sortBySizeDesc l) = true :=
  pairwiseDesc_of_sorted (List.sorted_insertionSort sizeGe l)

theorem nodeName_concat (p : List String) {e : String} (h : e ≠ "") :
    nodeName (p ++ [e]) = e := by
  simp [nodeName, basename, List.getLast?_concat, h]

theorem du_map_ok {du : DuOutcome} {p : List String} {t : TreeNode}
    (h : (get_size_with_du du).map (fun s => TreeNode.dir (nodeName p) p s []) = .ok t) :
    ∃ s, get_size_with_du du = .ok s ∧ t = .dir (nodeName p) p s [] := by
  cases hdu : get_size_with_du du with
  | error e => rw [hdu] at h; simp [Except.map] at h
  | ok s =>
    rw [hdu] at h
    simp only [Except.map, Except.ok.injEq] at h
    exact ⟨s, rfl, h.symm⟩

/-! ### Claim theorems -/

/-- C1: the claim says a failed, timed-out or unparseable `du`
invocation makes the estimator fall through to the manual
`get_folder_size_walk`; in the code `get_size_with_du` returns 0 on
those failures and `get_folder_size_walk` is never invoked.  At a
depth-cutoff directory holding one 100-byte file whose `du` times out,
the scanner reports size 0 while the manual walk would report 100. -/
theorem C1_du_failure_reports_zero_without_walk_fallback :
    get_size_with_du .timeout = .ok 0 ∧
    get_size_with_du (.completed 1 none) = .ok 0 ∧
    get_size_with_du (.completed 0 none) = .ok 0 ∧
    scan_directory (.dir .timeout .ok [("a", .file (some 100))]) [] 0 0
      = .ok (.dir "/" [] 0 []) ∧
    get_folder_size_walk (.dir .timeout .ok [("a", .file (some 100))]) = 100 :=
  ⟨rfl, rfl, rfl, rfl, rfl⟩

/-- C2: the claim says `Scan` and `EstimateSize` are total and absorb
every failure of the external measurement tool; in the code an
`OSError` from `subprocess.run` (e.g. the `du` binary missing) is not
in the caught exception tuple, so `get_size_with_du` raises and the
root-level scan propagates the exception instead of returning a node
(both at a depth-cutoff root and at a permission-denied root).  Only
when the failure occurs inside a child scan is it absorbed, by the
per-entry `except OSError` of the loop, which drops the child. -/
theorem C2_missing_tool_exception_propagates :
    get_size_with_du .raisedOS = .error () ∧
    scan_directory (.dir .raisedOS .ok [("a", .file (some 100))]) [] 0 0 = .error () ∧
    scan_directory (.dir .raisedOS .permissionError [("a", .file (some 100))]) [] 3 0
      = .error () ∧
    scanChildren [("x", .dir .raisedOS .ok [])] [] 1 0 = [] :=
  ⟨rfl, rfl, rfl, rfl⟩

/-- C5: directory-listing errors are classified three ways, none
aborting the scan: a `PermissionError` on listing yields the node with
the estimator's total and no children; any other listing error yields
the node with size 0 and no children; an OS-level error escaping one
entry's processing (concretely, a recursive scan that raises) skips
exactly that entry and the sibling loop continues. -/
theorem C5_listing_error_classification :
    (∀ du es p md cd,
      scan_directory (.dir du .permissionError es) p md cd
        = (get_size_with_du du).map fun s => .dir (nodeName p) p s []) ∧
    (∀ du es p md cd, cd < md →
      scan_directory (.dir du .otherError es) p md cd
        = .ok (.dir (nodeName p) p 0 [])) ∧
    (∀ du lerr es2 e rest p md cd,
      scan_directory (.dir du lerr es2) (p ++ [e]) md (cd + 1) = .error () →
      scanChildren ((e, .dir du lerr es2) :: rest) p md cd
        = scanChildren rest p md cd) := by
  refine ⟨?_, ?_, ?_⟩
  · intro du es p md cd
    simp only [scan_directory]
    split <;> rfl
  · intro du es p md cd h
    simp only [scan_directory]
    rw [if_neg (Nat.not_le.mpr h)]
  · intro du lerr es2 e rest p md cd h
    rw [scanChildren]
    by_cases hd : startsWithDot e
    · simp [hd]
    · simp [hd, islink, isdir, h]

/-- C5 witness: concrete instances of the three classifications. -/
theorem C5_listing_error_classification_witness :
    scan_directory (.dir .timeout .permissionError [("a", .file (some 5))]) [] 3 0
      = .ok (.dir "/" [] 0 []) ∧
    0 < 3 ∧
    scan_directory (.dir .timeout .otherError [("a", .file (some 5))]) [] 3 0
      = .ok (.dir "/" [] 0 []) ∧
    scan_directory (.dir .raisedOS .ok []) ([] ++ ["x"]) 1 (0 + 1) = .error () ∧
    scanChildren [("x", .dir .raisedOS .ok []), ("b", .file (some 7))] [] 1 0
      = scanChildren [("b", .file (some 7))] [] 1 0 := by
  obtain ⟨h1, h2, h3⟩ := C5_listing_error_classification
  exact ⟨(h1 .timeout [("a", .file (some 5))] [] 3 0).trans rfl,
    Nat.zero_lt_succ 2,
    h2 .timeout [("a", .file (some 5))] [] 3 0 (Nat.zero_lt_succ 2),
    rfl,
    h3 .raisedOS .ok [] "x" [("b", .file (some 7))] [] 1 0 rfl⟩

/-- C10: every size the bulk estimator returns is 0 or the parsed
kilobyte count times 1024, so every directory node whose size comes
from the estimator (depth cutoff or permission denied) has a size
divisible by 1024. -/
theorem C10_estimator_sizes_are_multiples_of_1024 :
    (∀ du s, get_size_with_du du = .ok s →
      s = 0 ∨ (∃ size_kb, s = size_kb * 1024)) ∧
    (∀ du s, get_size_with_du du = .ok s → s % 1024 = 0) ∧
    (∀ du lerr es p md cd t,
      (md ≤ cd ∨ lerr = .permissionError) →
      scan_directory (.dir du lerr es) p md cd = .ok t →
      TreeNode.size t % 1024 = 0) := by
  have key : ∀ du s, get_size_with_du du = .ok s →
      s = 0 ∨ (∃ size_kb, s = size_kb * 1024) := by
    intro du s h
    cases du with
    | raisedOS => simp [get_size_with_du] at h
    | timeout =>
      simp only [get_size_with_du, Except.ok.injEq] at h
      exact Or.inl h.symm
    | completed rc tok =>
      simp only [get_size_with_du] at h
      split at h
      · cases tok with
        | some kb =>
          simp only [Except.ok.injEq] at h
          exact Or.inr ⟨kb, h.symm⟩
        | none =>
          simp only [Except.ok.injEq] at h
          exact Or.inl h.symm
      · simp only [Except.ok.injEq] at h
        exact Or.inl h.symm
  have key2 : ∀ du s, get_size_with_du du = .ok s → s % 1024 = 0 := by
    intro du s h
    rcases key du s h with h0 | ⟨kb, hkb⟩
    · simp [h0]
    · simp [hkb, Nat.mul_mod_left]
  refine ⟨key, key2, ?_⟩
  intro du lerr es p md cd t hor h
  by_cases hmd : md ≤ cd
  · simp only [scan_directory, if_pos hmd] at h
    obtain ⟨s, hdu, ht⟩ := du_map_ok h
    rw [ht]
    exact key2 du s hdu
  · rcases hor with hmd2 | hperm
    · exact absurd hmd2 hmd
    · subst hperm
      simp only [scan_directory, if_neg hmd] at h
      obtain ⟨s, hdu, ht⟩ := du_map_ok h
      rw [ht]
      exact key2 du s hdu

/-- C10 witness: a successful `du` of 7 kilobytes at a depth-cutoff
root gives a node of size 7168, a multiple of 1024. -/
theorem C10_estimator_sizes_are_multiples_of_1024_witness :
    get_size_with_du (.completed 0 (some 7)) = .ok 7168 ∧
    (7168 = 0 ∨ ∃ size_kb, 7168 = size_kb * 1024) ∧
    7168 % 1024 = 0 ∧
    (0 ≤ 0 ∨ LErr.ok = LErr.permissionError) ∧
    scan_directory (.dir (.completed 0 (some 7)) .ok [("a", .file (some 5))]) [] 0 0
      = .ok (.dir "/" [] 7168 []) ∧
    TreeNode.size (.dir "/" [] 7168 []) % 1024 = 0 := by
  obtain ⟨k1, k2, k3⟩ := C10_estimator_sizes_are_multiples_of_1024
  refine ⟨rfl, ?_, ?_, Or.inl (Nat.le_refl 0), rfl, ?_⟩
  · exact k1 (.completed 0 (some 7)) 7168 rfl
  · exact k2 (.completed 0 (some 7)) 7168 rfl
  · exact k3 (.completed 0 (some 7)) .ok [("a", .file (some 5))] [] 0 0
      (.dir "/" [] 7168 []) (Or.inl (Nat.le_refl 0)) rfl

mutual

theorem scan_sizes : ∀ (fs : FS) (p : List String) (md cd : Nat) (t : TreeNode),
    scan_directory fs p md cd = .ok t → ∀ n ∈ allNodes t, dirSumOk n = true
  | .file sz, p, md, cd, t, h => by
    simp only [scan_directory, Except.ok.injEq] at h
    subst h
    intro n hn
    simp only [allNodes, List.mem_singleton] at hn
    subst hn
    rfl
  | .symlink, p, md, cd, t, h => by
    simp only [scan_directory, Except.ok.injEq] at h
    subst h
    intro n hn
    simp only [allNodes, List.mem_singleton] at hn
    subst hn
    rfl
  | .dir du lerr es, p, md, cd, t, h => by
    by_cases hmd : md ≤ cd
    · simp only [scan_directory, if_pos hmd] at h
      obtain ⟨s, _, ht⟩ := du_map_ok h
      subst ht
      intro n hn
      simp only [allNodes, allNodesList, List.mem_singleton] at hn
      subst hn
      rfl
    · cases lerr with
      | permissionError =>
        simp only [scan_directory, if_neg hmd] at h
        obtain ⟨s, _, ht⟩ := du_map_ok h
        subst ht
        intro n hn
        simp only [allNodes, allNodesList, List.mem_singleton] at hn
        subst hn
        rfl
      | otherError =>
        simp only [scan_directory, if_neg hmd, Except.ok.injEq] at h
        subst h
        intro n hn
        simp only [allNodes, allNodesList, List.mem_singleton] at hn
        subst hn
        rfl
      | ok =>
        simp only [scan_directory, if_neg hmd, Except.ok.injEq] at h
        subst h
        intro n hn
        simp only [allNodes, List.mem_cons] at hn
        rcases hn with hn | hn
        · subst hn
          simp [dirSumOk, sumSizes_sort]
        · obtain ⟨t2, ht2, hnt2⟩ := mem_allNodesList.mp hn
          have ht2cs : t2 ∈ scanChildren es p md cd :=
            ((sortBySizeDesc_perm (scanChildren es p md cd)).mem_iff).mp ht2
          exact scanChildren_sizes es p md cd t2 ht2cs n hnt2

theorem scanChildren_sizes : ∀ (es : List (String × FS)) (p : List String) (md cd : Nat),
    ∀ t ∈ scanChildren es p md cd, ∀ n ∈ allNodes t, dirSumOk n = true
  | [], p, md, cd => by simp [scanChildren]
  | (e, c) :: rest, p, md, cd => by
    by_cases hd : startsWithDot e
    · rw [scanChildren, if_pos hd]
      exact scanChildren_sizes rest p md cd
    · cases c with
      | symlink =>
        rw [scanChildren, if_neg hd]
        exact scanChildren_sizes rest p md cd
      | file sz =>
        rw [scanChildren, if_neg hd]
        intro t ht
        simp only [islink, isdir, Bool.false_eq_true, if_false, List.mem_cons] at ht
        rcases ht with ht | ht
        · subst ht
          intro n hn
          simp only [allNodes, List.mem_singleton] at hn
          subst hn
          rfl
        · exact scanChildren_sizes rest p md cd t ht
      | dir du2 lerr2 es2 =>
        rw [scanChildren, if_neg hd]
        simp only [islink, isdir, Bool.false_eq_true, if_false, if_true]
        intro t ht
        cases hres : scan_directory (.dir du2 lerr2 es2) (p ++ [e]) md (cd + 1) with
        | ok t0 =>
          rw [hres] at ht
          simp only [List.mem_cons] at ht
          rcases ht with ht | ht
          · subst ht
            exact scan_sizes (.dir du2 lerr2 es2) (p ++ [e]) md (cd + 1) _ hres
          · exact scanChildren_sizes rest p md cd t ht
        | error err =>
          rw [hres] at ht
          exact scanChildren_sizes rest p md cd t ht

end

/-- Projection of the per-node Boolean size check to the stated form. -/
theorem dirSumOk_spec {n : TreeNode} (h : dirSumOk n = true) :
    (TreeNode.children n).isEmpty = false →
    TreeNode.size n = sumSizes (TreeNode.children n) := by
  cases n with
  | file nm pth s => intro hc; simp [TreeNode.children] at hc
  | dir nm pth s cs =>
    intro hc
    simp only [TreeNode.children] at hc ⊢
    simp only [dirSumOk, hc, Bool.false_or, beq_iff_eq] at h
    simpa [TreeNode.size] using h

/-- C3: in every tree a scan produces, every directory node that has
children has `size` equal to the sum of its children's sizes, at every
depth of the tree. -/
theorem C3_dir_size_equals_sum_of_children_sizes
    (fs : FS) (p : List String) (md cd : Nat) (t : TreeNode)
    (h : scan_directory fs p md cd = .ok t) :
    ∀ n ∈ allNodes t, (TreeNode.children n).isEmpty = false →
      TreeNode.size n = sumSizes (TreeNode.children n) :=
  fun n hn => dirSumOk_spec (scan_sizes fs p md cd t h n hn)

/-- C3 witness: a concrete two-level scan. -/
theorem C3_dir_size_equals_sum_of_children_sizes_witness :
    scan_directory
      (.dir .timeout .ok
        [("a", .file (some 100)),
         ("b", .dir .timeout .ok [("c", .file (some 200)), ("d", .file (some 1))])])
      [] 3 0
      = .ok (.dir "/" [] 301
          [.dir "b" ["b"] 201
            [.file "c" ["b", "c"] 200, .file "d" ["b", "d"] 1],
           .file "a" ["a"] 100]) ∧
    (∀ n ∈ allNodes (.dir "/" [] 301
          [.dir "b" ["b"] 201
            [.file "c" ["b", "c"] 200, .file "d" ["b", "d"] 1],
           .file "a" ["a"] 100]),
      (TreeNode.children n).isEmpty = false →
        TreeNode.size n = sumSizes (TreeNode.children n)) :=
  ⟨rfl, C3_dir_size_equals_sum_of_children_sizes
    (.dir .timeout .ok
      [("a", .file (some 100)),
       ("b", .dir .timeout .ok [("c", .file (some 200)), ("d", .file (some 1))])])
    [] 3 0 _ rfl⟩

mutual

theorem scan_sorted : ∀ (fs : FS) (p : List String) (md cd : Nat) (t : TreeNode),
    scan_directory fs p md cd = .ok t →
    ∀ n ∈ allNodes t, pairwiseDesc (TreeNode.children n) = true
  | .file sz, p, md, cd, t, h => by
    simp only [scan_directory, Except.ok.injEq] at h
    subst h
    intro n hn
    simp only [allNodes, List.mem_singleton] at hn
    subst hn
    rfl
  | .symlink, p, md, cd, t, h => by
    simp only [scan_directory, Except.ok.injEq] at h
    subst h
    intro n hn
    simp only [allNodes, List.mem_singleton] at hn
    subst hn
    rfl
  | .dir du lerr es, p, md, cd, t, h => by
    by_cases hmd : md ≤ cd
    · simp only [scan_directory, if_pos hmd] at h
      obtain ⟨s, _, ht⟩ := du_map_ok h
      subst ht
      intro n hn
      simp only [allNodes, allNodesList, List.mem_singleton] at hn
      subst hn
      rfl
    · cases lerr with
      | permissionError =>
        simp only [scan_directory, if_neg hmd] at h
        obtain ⟨s, _, ht⟩ := du_map_ok h
        subst ht
        intro n hn
        simp only [allNodes, allNodesList, List.mem_singleton] at hn
        subst hn
        rfl
      | otherError =>
        simp only [scan_directory, if_neg hmd, Except.ok.injEq] at h
        subst h
        intro n hn
        simp only [allNodes, allNodesList, List.mem_singleton] at hn
        subst hn
        rfl
      | ok =>
        simp only [scan_directory, if_neg hmd, Except.ok.injEq] at h
        subst h
        intro n hn
        simp only [allNodes, List.mem_cons] at hn
        rcases hn with hn | hn
        · subst hn
          simp only [TreeNode.children]
          exact pairwiseDesc_sort (scanChildren es p md cd)
        · obtain ⟨t2, ht2, hnt2⟩ := mem_allNodesList.mp hn
          have ht2cs : t2 ∈ scanChildren es p md cd :=
            ((sortBySizeDesc_perm (scanChildren es p md cd)).mem_iff).mp ht2
          exact scanChildren_sorted es p md cd t2 ht2cs n hnt2

theorem scanChildren_sorted : ∀ (es : List (String × FS)) (p : List String) (md cd : Nat),
    ∀ t ∈ scanChildren es p md cd,
    ∀ n ∈ allNodes t, pairwiseDesc (TreeNode.children n) = true
  | [], p, md, cd => by simp [scanChildren]
  | (e, c) :: rest, p, md, cd => by
    by_cases hd : startsWithDot e
    · rw [scanChildren, if_pos hd]
      exact scanChildren_sorted rest p md cd
    · cases c with
      | symlink =>
        rw [scanChildren, if_neg hd]
        exact scanChildren_sorted rest p md cd
      | file sz =>
        rw [scanChildren, if_neg hd]
        intro t ht
        simp only [islink, isdir, Bool.false_eq_true, if_false, List.mem_cons] at ht
        rcases ht with ht | ht
        · subst ht
          intro n hn
          simp only [allNodes, List.mem_singleton] at hn
          subst hn
          rfl
        · exact scanChildren_sorted rest p md cd t ht
      | dir du2 lerr2 es2 =>
        rw [scanChildren, if_neg hd]
        simp only [islink, isdir, Bool.false_eq_true, if_false, if_true]
        intro t ht
        cases hres : scan_directory (.dir du2 lerr2 es2) (p ++ [e]) md (cd + 1) with
        | ok t0 =>
          rw [hres] at ht
          simp only [List.mem_cons] at ht
          rcases ht with ht | ht
          · subst ht
            exact scan_sorted (.dir du2 lerr2 es2) (p ++ [e]) md (cd + 1) _ hres
          · exact scanChildren_sorted rest p md cd t ht
        | error err =>
          rw [hres] at ht
          exact scanChildren_sorted rest p md cd t ht

end

/-- C8: in every tree a scan produces, the children of every node are
sorted by `size` in non-increasing order: every adjacent pair `a, b`
satisfies `b.size ≤ a.size`. -/
theorem C8_children_sorted_by_size_descending
    (fs : FS) (p : List String) (md cd : Nat) (t : TreeNode)
    (h : scan_directory fs p md cd = .ok t) :
    ∀ n ∈ allNodes t, pairwiseDesc (TreeNode.children n) = true :=
  scan_sorted fs p md cd t h

/-- C8 witness: a scan with equal and unequal sizes at two levels. -/
theorem C8_children_sorted_by_size_descending_witness :
    scan_directory
      (.dir .timeout .ok
        [("a", .file (some 5)), ("b", .file (some 9)),
         ("u", .dir .timeout .ok [("v", .file (some 3)), ("w", .file (some 8))]),
         ("z", .file (some 9))])
      [] 3 0
      = .ok (.dir "/" [] 34
          [.dir "u" ["u"] 11 [.file "w" ["u", "w"] 8, .file "v" ["u", "v"] 3],
           .file "b" ["b"] 9, .file "z" ["z"] 9, .file "a" ["a"] 5]) ∧
    (∀ n ∈ allNodes (.dir "/" [] 34
          [.dir "u" ["u"] 11 [.file "w" ["u", "w"] 8, .file "v" ["u", "v"] 3],
           .file "b" ["b"] 9, .file "z" ["z"] 9, .file "a" ["a"] 5]),
      pairwiseDesc (TreeNode.children n) = true) :=
  ⟨rfl, C8_children_sorted_by_size_descending
    (.dir .timeout .ok
      [("a", .file (some 5)), ("b", .file (some 9)),
       ("u", .dir .timeout .ok [("v", .file (some 3)), ("w", .file (some 8))]),
       ("z", .file (some 9))])
    [] 3 0 _ rfl⟩

/-- The root of any node a scan returns carries the name computed from
the scanned path, `nodeName p`. -/
theorem scan_root_name : ∀ (fs : FS) (p : List String) (md cd : Nat) (t : TreeNode),
    scan_directory fs p md cd = .ok t → TreeNode.name t = nodeName p := by
  intro fs p md cd t h
  cases fs with
  | file sz =>
    simp only [scan_directory, Except.ok.injEq] at h
    subst h
    rfl
  | symlink =>
    simp only [scan_directory, Except.ok.injEq] at h
    subst h
    rfl
  | dir du lerr es =>
    by_cases hmd : md ≤ cd
    · simp only [scan_directory, if_pos hmd] at h
      obtain ⟨s, _, ht⟩ := du_map_ok h
      subst ht
      rfl
    · cases lerr with
      | permissionError =>
        simp only [scan_directory, if_neg hmd] at h
        obtain ⟨s, _, ht⟩ := du_map_ok h
        subst ht
        rfl
      | otherError =>
        simp only [scan_directory, if_neg hmd, Except.ok.injEq] at h
        subst h
        rfl
      | ok =>
        simp only [scan_directory, if_neg hmd, Except.ok.injEq] at h
        subst h
        rfl

mutual

theorem scan_names : ∀ (fs : FS) (p : List String) (md cd : Nat) (t : TreeNode),
    wfNames fs = true → scan_directory fs p md cd = .ok t →
    ∀ n ∈ allNodesList (TreeNode.children t), startsWithDot (TreeNode.name n) = false
  | .file sz, p, md, cd, t, hwf, h => by
    simp only [scan_directory, Except.ok.injEq] at h
    subst h
    intro n hn
    simp only [TreeNode.children, allNodesList] at hn
    exact absurd hn (List.not_mem_nil n)
  | .symlink, p, md, cd, t, hwf, h => by
    simp only [scan_directory, Except.ok.injEq] at h
    subst h
    intro n hn
    simp only [TreeNode.children, allNodesList] at hn
    exact absurd hn (List.not_mem_nil n)
  | .dir du lerr es, p, md, cd, t, hwf, h => by
    by_cases hmd : md ≤ cd
    · simp only [scan_directory, if_pos hmd] at h
      obtain ⟨s, _, ht⟩ := du_map_ok h
      subst ht
      intro n hn
      simp only [TreeNode.children, allNodesList] at hn
      exact absurd hn (List.not_mem_nil n)
    · cases lerr with
      | permissionError =>
        simp only [scan_directory, if_neg hmd] at h
        obtain ⟨s, _, ht⟩ := du_map_ok h
        subst ht
        intro n hn
        simp only [TreeNode.children, allNodesList] at hn
        exact absurd hn (List.not_mem_nil n)
      | otherError =>
        simp only [scan_directory, if_neg hmd, Except.ok.injEq] at h
        subst h
        intro n hn
        simp only [TreeNode.children, allNodesList] at hn
        exact absurd hn (List.not_mem_nil n)
      | ok =>
        simp only [scan_directory, if_neg hmd, Except.ok.injEq] at h
        subst h
        intro n hn
        simp only [TreeNode.children] at hn
        obtain ⟨t2, ht2, hnt2⟩ := mem_allNodesList.mp hn
        have ht2cs : t2 ∈ scanChildren es p md cd :=
          ((sortBySizeDesc_perm (scanChildren es p md cd)).mem_iff).mp ht2
        have hwe : wfEntries es = true := by simpa [wfNames] using hwf
        exact scanChildren_names es p md cd hwe t2 ht2cs n hnt2

theorem scanChildren_names : ∀ (es : List (String × FS)) (p : List String) (md cd : Nat),
    wfEntries es = true →
    ∀ t ∈ scanChildren es p md cd,
    ∀ n ∈ allNodes t, startsWithDot (TreeNode.name n) = false
  | [], p, md, cd => by simp [scanChildren]
  | (e, c) :: rest, p, md, cd => by
    intro hwf
    have hparts := hwf
    simp only [wfEntries, Bool.and_eq_true, Bool.not_eq_eq_eq_not, Bool.not_true,
      beq_eq_false_iff_ne, ne_eq] at hparts
    obtain ⟨⟨he, hwc⟩, hwr⟩ := hparts
    by_cases hd : startsWithDot e
    · rw [scanChildren, if_pos hd]
      exact scanChildren_names rest p md cd hwr
    · have hdf : startsWithDot e = false := by
        exact Bool.not_eq_true _ ▸ eq_false_of_ne_true hd
      cases c with
      | symlink =>
        rw [scanChildren, if_neg hd]
        exact scanChildren_names rest p md cd hwr
      | file sz =>
        rw [scanChildren, if_neg hd]
        intro t ht
        simp only [islink, isdir, Bool.false_eq_true, if_false, List.mem_cons] at ht
        rcases ht with ht | ht
        · subst ht
          intro n hn
          simp only [allNodes, List.mem_singleton] at hn
          subst hn
          exact hdf
        · exact scanChildren_names rest p md cd hwr t ht
      | dir du2 lerr2 es2 =>
        rw [scanChildren, if_neg hd]
        simp only [islink, isdir, Bool.false_eq_true, if_false, if_true]
        intro t ht
        cases hres : scan_directory (.dir du2 lerr2 es2) (p ++ [e]) md (cd + 1) with
        | ok t0 =>
          rw [hres] at ht
          simp only [List.mem_cons] at ht
          rcases ht with ht | ht
          · subst ht
            intro n hn
            rw [allNodes_eq] at hn
            rcases List.mem_cons.mp hn with hn | hn
            · subst hn
              rw [scan_root_name _ _ _ _ _ hres, nodeName_concat p he]
              exact hdf
            · exact scan_names (.dir du2 lerr2 es2) (p ++ [e]) md (cd + 1) _ hwc hres n hn
          · exact scanChildren_names rest p md cd hwr t ht
        | error err =>
          rw [hres] at ht
          exact scanChildren_names rest p md cd hwr t ht

end

/-- C6: hidden entries never become nodes: in any produced tree, every
node other than the root (everything past the head of the pre-order
node list) has a name that does not begin with a dot; the root itself
is exempt (its name comes from the scanned path, which may be hidden). -/
theorem C6_no_hidden_names_below_root
    (fs : FS) (p : List String) (md cd : Nat) (t : TreeNode)
    (hwf : wfNames fs = true) (h : scan_directory fs p md cd = .ok t) :
    ∀ n ∈ (allNodes t).tail, startsWithDot (TreeNode.name n) = false := by
  rw [allNodes_eq]
  exact scan_names fs p md cd t hwf h

/-- C6 witness: a hidden root directory containing a hidden file (which
is filtered out) and a visible subtree. -/
theorem C6_no_hidden_names_below_root_witness :
    wfNames (.dir .timeout .ok
      [(".hidden", .file (some 50)), ("a", .file (some 100)),
       ("b", .dir .timeout .ok [(".git", .dir .timeout .ok []), ("c", .file (some 7))])])
      = true ∧
    scan_directory
      (.dir .timeout .ok
        [(".hidden", .file (some 50)), ("a", .file (some 100)),
         ("b", .dir .timeout .ok [(".git", .dir .timeout .ok []), ("c", .file (some 7))])])
      [".cfg"] 3 0
      = .ok (.dir ".cfg" [".cfg"] 107
          [.file "a" [".cfg", "a"] 100,
           .dir "b" [".cfg", "b"] 7 [.file "c" [".cfg", "b", "c"] 7]]) ∧
    (∀ n ∈ (allNodes (.dir ".cfg" [".cfg"] 107
          [.file "a" [".cfg", "a"] 100,
           .dir "b" [".cfg", "b"] 7 [.file "c" [".cfg", "b", "c"] 7]])).tail,
      startsWithDot (TreeNode.name n) = false) :=
  ⟨rfl, rfl, C6_no_hidden_names_below_root
    (.dir .timeout .ok
      [(".hidden", .file (some 50)), ("a", .file (some 100)),
       ("b", .dir .timeout .ok [(".git", .dir .timeout .ok []), ("c", .file (some 7))])])
    [".cfg"] 3 0 _ rfl rfl⟩

mutual

theorem scan_prune : ∀ (fs : FS) (p : List String) (md cd : Nat),
    scan_directory fs p md cd = scan_directory (pruneLinks fs) p md cd
  | .file sz, p, md, cd => rfl
  | .symlink, p, md, cd => rfl
  | .dir du lerr es, p, md, cd => by
    simp only [pruneLinks, scan_directory]
    by_cases hmd : md ≤ cd
    · rw [if_pos hmd, if_pos hmd]
    · rw [if_neg hmd, if_neg hmd]
      cases lerr with
      | permissionError => rfl
      | otherError => rfl
      | ok =>
        rw [scanChildren_prune es p md cd]

theorem scanChildren_prune : ∀ (es : List (String × FS)) (p : List String) (md cd : Nat),
    scanChildren es p md cd = scanChildren (pruneEntries es) p md cd
  | [], p, md, cd => rfl
  | (e, c) :: rest, p, md, cd => by
    cases c with
    | symlink =>
      simp only [scanChildren, pruneEntries, islink, if_true, ite_self]
      exact scanChildren_prune rest p md cd
    | file sz =>
      simp only [scanChildren, pruneEntries, pruneLinks, islink, isdir,
        Bool.false_eq_true, if_false]
      by_cases hd : startsWithDot e
      · rw [if_pos hd, if_pos hd]
        exact scanChildren_prune rest p md cd
      · rw [if_neg hd, if_neg hd]
        rw [scanChildren_prune rest p md cd]
    | dir du2 lerr2 es2 =>
      simp only [scanChildren, pruneEntries, islink, isdir, Bool.false_eq_true, if_false]
      by_cases hd : startsWithDot e
      · rw [if_pos hd, if_pos hd]
        exact scanChildren_prune rest p md cd
      · rw [if_neg hd, if_neg hd]
        rw [scanChildren_prune rest p md cd,
          scan_prune (.dir du2 lerr2 es2) (p ++ [e]) md (cd + 1)]
        simp [pruneLinks, islink, isdir]

end

mutual

theorem walkEntry_prune : ∀ c : FS, walkEntry c = walkEntry (pruneLinks c)
  | .file sz => rfl
  | .symlink => rfl
  | .dir du lerr es => by
    simp only [pruneLinks, walkEntry]
    by_cases hl : lerr = LErr.ok
    · rw [if_pos hl, if_pos hl]
      exact walkFiles_prune es
    · rw [if_neg hl, if_neg hl]

theorem walkFiles_prune : ∀ es : List (String × FS),
    walkFiles es = walkFiles (pruneEntries es)
  | [] => rfl
  | (e, c) :: rest => by
    cases c with
    | symlink =>
      simp only [walkFiles, walkEntry, pruneEntries, islink, if_true, Nat.zero_add]
      exact walkFiles_prune rest
    | file sz =>
      simp only [walkFiles, pruneEntries, pruneLinks, islink, Bool.false_eq_true, if_false]
      rw [walkFiles_prune rest]
    | dir du2 lerr2 es2 =>
      simp only [walkFiles, pruneEntries, islink, Bool.false_eq_true, if_false]
      rw [walkFiles_prune rest, walkEntry_prune (.dir du2 lerr2 es2)]

end

/-- C7: symbolic links are treated as absent by both the walker and the
manual fallback walk: deleting every symlink entry from the filesystem
(at every level) changes neither the tree a scan returns — so no
symlink is ever traversed, sized, or present in the output — nor the
manual walk total. -/
theorem C7_symlinks_never_traversed_never_counted
    (fs : FS) (p : List String) (md cd : Nat) :
    scan_directory fs p md cd = scan_directory (pruneLinks fs) p md cd ∧
    get_folder_size_walk fs = get_folder_size_walk (pruneLinks fs) := by
  refine ⟨scan_prune fs p md cd, ?_⟩
  cases fs with
  | file sz => rfl
  | symlink => rfl
  | dir du lerr es =>
    simp only [pruneLinks, get_folder_size_walk]
    by_cases hl : lerr = LErr.ok
    · rw [if_pos hl, if_pos hl]
      exact walkFiles_prune es
    · rw [if_neg hl, if_neg hl]

mutual

theorem flatten_eq_map : ∀ t : TreeNode, flatten_tree t = (allNodes t).map TreeNode.record
  | .file n p s => rfl
  | .dir n p s cs => by
    simp only [flatten_tree, allNodes, List.map_cons, List.cons.injEq, true_and]
    exact flattenList_eq_map cs

theorem flattenList_eq_map : ∀ l : List TreeNode,
    flattenList l = (allNodesList l).map TreeNode.record
  | [] => rfl
  | t :: ts => by
    simp only [flattenList, allNodesList, List.map_append]
    rw [flatten_eq_map t, flattenList_eq_map ts]

end

mutual

theorem allNodes_perm_postorder : ∀ t : TreeNode, List.Perm (allNodes t) (postorder t)
  | .file n p s => List.Perm.refl _
  | .dir n p s cs => by
    simp only [allNodes, postorder]
    have h2 := (allNodesList_perm_postList cs).cons (TreeNode.dir n p s cs)
    exact h2.trans (@List.perm_append_comm _ [TreeNode.dir n p s cs] (postList cs))

theorem allNodesList_perm_postList : ∀ l : List TreeNode,
    List.Perm (allNodesList l) (postList l)
  | [] => List.Perm.refl _
  | t :: ts => by
    simp only [allNodesList, postList]
    exact (allNodes_perm_postorder t).append (allNodesList_perm_postList ts)

end

/-- C9: `flatten_tree` is the pre-order record sequence: it equals the
records of the pre-order node list, hence starts with the root's own
record and contains a record of every node (directories and files
alike); and its multiset of `(path, size)` pairs is traversal-order
independent — it coincides with the one computed from a post-order
walk of the same tree. -/
theorem C9_flatten_is_preorder_with_stable_multiset (t : TreeNode) :
    flatten_tree t = (allNodes t).map TreeNode.record ∧
    (flatten_tree t).head? = some (TreeNode.record t) ∧
    ((flatten_tree t).map fun i => (i.path, i.size) : Multiset (List String × Nat))
      = ((postorder t).map fun n => (TreeNode.path n, TreeNode.size n) :
          Multiset (List String × Nat)) := by
  refine ⟨flatten_eq_map t, ?_, ?_⟩
  · rw [flatten_eq_map t, allNodes_eq]
    rfl
  · have hcomp : ((fun i : Item => (i.path, i.size)) ∘ TreeNode.record)
        = fun n : TreeNode => (TreeNode.path n, TreeNode.size n) := by
      funext n
      cases n <;> rfl
    have hperm : List.Perm ((flatten_tree t).map fun i => (i.path, i.size))
        ((postorder t).map fun n => (TreeNode.path n, TreeNode.size n)) := by
      rw [flatten_eq_map t, List.map_map, hcomp]
      exact (allNodes_perm_postorder t).map _
    exact Multiset.coe_eq_coe.mpr hperm

theorem nodesAt_file {k : Nat} {nm : String} {pth : List String} {s : Nat} :
    ∀ n ∈ nodesAt k (.file nm pth s), TreeNode.children n = [] := by
  cases k with
  | zero =>
    intro n hn
    simp only [nodesAt, List.mem_singleton] at hn
    subst hn
    rfl
  | succ j =>
    intro n hn
    simp [nodesAt, TreeNode.children] at hn

theorem nodesAt_childless {k : Nat} {nm : String} {pth : List String} {s : Nat} :
    ∀ n ∈ nodesAt k (.dir nm pth s []), TreeNode.children n = [] := by
  cases k with
  | zero =>
    intro n hn
    simp only [nodesAt, List.mem_singleton] at hn
    subst hn
    rfl
  | succ j =>
    intro n hn
    simp [nodesAt, TreeNode.children] at hn

mutual

theorem scan_nodesAt_cutoff : ∀ (fs : FS) (p : List String) (md cd : Nat) (t : TreeNode),
    scan_directory fs p md cd = .ok t →
    ∀ n ∈ nodesAt (md - cd) t, TreeNode.children n = []
  | .file sz, p, md, cd, t, h => by
    simp only [scan_directory, Except.ok.injEq] at h
    subst h
    exact nodesAt_file
  | .symlink, p, md, cd, t, h => by
    simp only [scan_directory, Except.ok.injEq] at h
    subst h
    exact nodesAt_file
  | .dir du lerr es, p, md, cd, t, h => by
    by_cases hmd : md ≤ cd
    · simp only [scan_directory, if_pos hmd] at h
      obtain ⟨s, _, ht⟩ := du_map_ok h
      subst ht
      exact nodesAt_childless
    · cases lerr with
      | permissionError =>
        simp only [scan_directory, if_neg hmd] at h
        obtain ⟨s, _, ht⟩ := du_map_ok h
        subst ht
        exact nodesAt_childless
      | otherError =>
        simp only [scan_directory, if_neg hmd, Except.ok.injEq] at h
        subst h
        exact nodesAt_childless
      | ok =>
        simp only [scan_directory, if_neg hmd, Except.ok.injEq] at h
        subst h
        intro n hn
        have hj : md - cd = (md - (cd + 1)) + 1 := by omega
        rw [hj] at hn
        simp only [nodesAt, TreeNode.children] at hn
        rw [List.mem_flatten] at hn
        obtain ⟨s2, hs2, hns2⟩ := hn
        rw [List.mem_map] at hs2
        obtain ⟨c, hc, hcs⟩ := hs2
        subst hcs
        have hccs : c ∈ scanChildren es p md cd :=
          ((sortBySizeDesc_perm (scanChildren es p md cd)).mem_iff).mp hc
        exact scanChildren_nodesAt es p md cd c hccs n hns2

theorem scanChildren_nodesAt : ∀ (es : List (String × FS)) (p : List String) (md cd : Nat),
    ∀ c ∈ scanChildren es p md cd,
    ∀ n ∈ nodesAt (md - (cd + 1)) c, TreeNode.children n = []
  | [], p, md, cd => by simp [scanChildren]
  | (e, c) :: rest, p, md, cd => by
    by_cases hd : startsWithDot e
    · rw [scanChildren, if_pos hd]
      exact scanChildren_nodesAt rest p md cd
    · cases c with
      | symlink =>
        rw [scanChildren, if_neg hd]
        exact scanChildren_nodesAt rest p md cd
      | file sz =>
        rw [scanChildren, if_neg hd]
        intro c2 hc2
        simp only [islink, isdir, Bool.false_eq_true, if_false, List.mem_cons] at hc2
        rcases hc2 with hc2 | hc2
        · subst hc2
          exact nodesAt_file
        · exact scanChildren_nodesAt rest p md cd c2 hc2
      | dir du2 lerr2 es2 =>
        rw [scanChildren, if_neg hd]
        simp only [islink, isdir, Bool.false_eq_true, if_false, if_true]
        intro c2 hc2
        cases hres : scan_directory (.dir du2 lerr2 es2) (p ++ [e]) md (cd + 1) with
        | ok t0 =>
          rw [hres] at hc2
          simp only [List.mem_cons] at hc2
          rcases hc2 with hc2 | hc2
          · subst hc2
            exact scan_nodesAt_cutoff (.dir du2 lerr2 es2) (p ++ [e]) md (cd + 1) _ hres
          · exact scanChildren_nodesAt rest p md cd c2 hc2
        | error err =>
          rw [hres] at hc2
          exact scanChildren_nodesAt rest p md cd c2 hc2

end

theorem du_ok_of_not_raised {du : DuOutcome} (h : ¬ du = DuOutcome.raisedOS) :
    ∃ s, get_size_with_du du = .ok s := by
  cases du with
  | raisedOS => exact absurd rfl h
  | timeout => exact ⟨0, rfl⟩
  | completed rc tok =>
    by_cases hrc : rc = 0
    · cases tok with
      | some kb => exact ⟨kb * 1024, by simp [get_size_with_du, hrc]⟩
      | none => exact ⟨0, by simp [get_size_with_du, hrc]⟩
    · exact ⟨0, by simp [get_size_with_du, hrc]⟩

theorem scan_clean_ok (fs : FS) (p : List String) (md cd : Nat)
    (hcl : cleanFS fs = true) : ∃ t, scan_directory fs p md cd = .ok t := by
  cases fs with
  | file sz => exact ⟨_, rfl⟩
  | symlink => exact ⟨_, rfl⟩
  | dir du lerr es =>
    simp only [cleanFS, Bool.and_eq_true, Bool.not_eq_eq_eq_not, Bool.not_true,
      beq_eq_false_iff_ne, ne_eq, beq_iff_eq] at hcl
    obtain ⟨⟨hdu, hlerr⟩, hce⟩ := hcl
    subst hlerr
    by_cases hmd : md ≤ cd
    · obtain ⟨s, hs⟩ := du_ok_of_not_raised hdu
      refine ⟨.dir (nodeName p) p s [], ?_⟩
      simp only [scan_directory, if_pos hmd, hs, Except.map]
    · refine ⟨.dir (nodeName p) p (sumSizes (scanChildren es p md cd))
        (sortBySizeDesc (scanChildren es p md cd)), ?_⟩
      simp only [scan_directory, if_neg hmd]

theorem nodesAt_file_len (j : Nat) (nm : String) (pth : List String) (s : Nat)
    (sz : Option Nat) :
    (nodesAt j (.file nm pth s)).length = (fsNodesAt j (.file sz)).length := by
  cases j with
  | zero => rfl
  | succ k => simp [nodesAt, fsNodesAt, TreeNode.children, validChildren]

mutual

theorem scan_clean_count : ∀ (fs : FS) (p : List String) (md cd : Nat) (t : TreeNode),
    cleanFS fs = true → scan_directory fs p md cd = .ok t →
    ∀ j, cd + j ≤ md → (nodesAt j t).length = (fsNodesAt j fs).length
  | .file sz, p, md, cd, t, hcl, h => by
    simp only [scan_directory, Except.ok.injEq] at h
    subst h
    intro j hj
    exact nodesAt_file_len j _ p _ sz
  | .symlink, p, md, cd, t, hcl, h => by
    simp only [scan_directory, Except.ok.injEq] at h
    subst h
    intro j hj
    cases j with
    | zero => rfl
    | succ k => simp [nodesAt, fsNodesAt, TreeNode.children, validChildren]
  | .dir du lerr es, p, md, cd, t, hcl, h => by
    simp only [cleanFS, Bool.and_eq_true, Bool.not_eq_eq_eq_not, Bool.not_true,
      beq_eq_false_iff_ne, ne_eq, beq_iff_eq] at hcl
    obtain ⟨⟨hdu, hlerr⟩, hce⟩ := hcl
    subst hlerr
    intro j hj
    cases j with
    | zero => rfl
    | succ k =>
      have hmd : ¬ md ≤ cd := by omega
      simp only [scan_directory, if_neg hmd, Except.ok.injEq] at h
      subst h
      simp only [nodesAt, TreeNode.children, fsNodesAt, validChildren]
      have hperm :
          List.Perm ((sortBySizeDesc (scanChildren es p md cd)).map fun c => nodesAt k c)
            ((scanChildren es p md cd).map fun c => nodesAt k c) :=
        (sortBySizeDesc_perm (scanChildren es p md cd)).map _
      rw [hperm.flatten.length_eq]
      exact scanChildren_clean_count es p md cd hce k (by omega)

theorem scanChildren_clean_count : ∀ (es : List (String × FS)) (p : List String) (md cd : Nat),
    cleanEntries es = true → ∀ j, (cd + 1) + j ≤ md →
    (((scanChildren es p md cd).map fun c => nodesAt j c).flatten).length
      = (((validEntryList es).map fun c => fsNodesAt j c).flatten).length
  | [], p, md, cd => by
    intro _ j _
    rfl
  | (e, c) :: rest, p, md, cd => by
    intro hce j hj
    simp only [cleanEntries, Bool.and_eq_true] at hce
    obtain ⟨hclc, hcer⟩ := hce
    by_cases hd : startsWithDot e
    · rw [scanChildren, if_pos hd]
      have hv : validEntryList ((e, c) :: rest) = validEntryList rest := by
        simp [validEntryList, List.filter_cons, hd]
      rw [hv]
      exact scanChildren_clean_count rest p md cd hcer j hj
    · have hdf : startsWithDot e = false := eq_false_of_ne_true hd
      cases c with
      | symlink =>
        rw [scanChildren, if_neg hd]
        have hv : validEntryList ((e, FS.symlink) :: rest) = validEntryList rest := by
          simp [validEntryList, List.filter_cons, hdf, islink]
        rw [hv]
        exact scanChildren_clean_count rest p md cd hcer j hj
      | file sz =>
        rw [scanChildren, if_neg hd]
        simp only [islink, isdir, Bool.false_eq_true, if_false]
        have hv : validEntryList ((e, FS.file sz) :: rest)
            = FS.file sz :: validEntryList rest := by
          simp [validEntryList, List.filter_cons, hdf, islink]
        rw [hv]
        simp only [List.map_cons, List.flatten_cons, List.length_append]
        rw [nodesAt_file_len j e (p ++ [e]) (get_file_size (.file sz)) sz]
        rw [scanChildren_clean_count rest p md cd hcer j hj]
      | dir du2 lerr2 es2 =>
        rw [scanChildren, if_neg hd]
        simp only [islink, isdir, Bool.false_eq_true, if_false, if_true]
        obtain ⟨t0, hres⟩ := scan_clean_ok (.dir du2 lerr2 es2) (p ++ [e]) md (cd + 1) hclc
        rw [hres]
        have hv : validEntryList ((e, FS.dir du2 lerr2 es2) :: rest)
            = FS.dir du2 lerr2 es2 :: validEntryList rest := by
          simp [validEntryList, List.filter_cons, hdf, islink]
        rw [hv]
        simp only [List.map_cons, List.flatten_cons, List.length_append]
        rw [scan_clean_count (.dir du2 lerr2 es2) (p ++ [e]) md (cd + 1) t0 hclc hres j
          (by omega)]
        rw [scanChildren_clean_count rest p md cd hcer j hj]

end

/-- C4: the depth-cutoff policy.  (i) At `current_depth >= max_depth` a
directory is not enumerated: its result is the estimator's size with no
children.  (ii) In any tree a scan returns, every node at relative
depth `max_depth - current_depth` has no children populated.  (iii) On
an error-free filesystem scanned from depth 0, the walker is exhaustive
above the cutoff: at every depth `j ≤ max_depth` the produced tree has
exactly one node per retained filesystem object at depth `j`. -/
theorem C4_depth_cutoff_policy :
    (∀ du lerr es p md cd, md ≤ cd →
      scan_directory (.dir du lerr es) p md cd
        = (get_size_with_du du).map fun s => .dir (nodeName p) p s []) ∧
    (∀ fs p md cd t, scan_directory fs p md cd = .ok t →
      ∀ n ∈ nodesAt (md - cd) t, (TreeNode.children n).isEmpty = true) ∧
    (∀ fs p md t, cleanFS fs = true → scan_directory fs p md 0 = .ok t →
      ∀ j ≤ md, (nodesAt j t).length = (fsNodesAt j fs).length) := by
  refine ⟨?_, ?_, ?_⟩
  · intro du lerr es p md cd hmd
    simp only [scan_directory, if_pos hmd]
  · intro fs p md cd t h n hn
    rw [scan_nodesAt_cutoff fs p md cd t h n hn]
    rfl
  · intro fs p md t hcl h j hj
    exact scan_clean_count fs p md 0 t hcl h j (by omega)

/-- C4 witness: a depth-2 filesystem scanned with `max_depth = 1`: the
depth-1 directory is reported with the estimator's size and no
children, and depths 0 and 1 are fully enumerated. -/
theorem C4_depth_cutoff_policy_witness :
    (1 ≤ 1 ∧
      scan_directory (.dir .timeout .permissionError [("z", .file (some 3))]) [] 1 1
        = (get_size_with_du .timeout).map fun s => .dir (nodeName []) [] s []) ∧
    (scan_directory
        (.dir .timeout .ok
          [("a", .file (some 100)), ("b", .dir .timeout .ok [("c", .file (some 200))])])
        [] 1 0
      = .ok (.dir "/" [] 100 [.file "a" ["a"] 100, .dir "b" ["b"] 0 []]) ∧
      (∀ n ∈ nodesAt (1 - 0) (.dir "/" [] 100 [.file "a" ["a"] 100, .dir "b" ["b"] 0 []]),
        (TreeNode.children n).isEmpty = true)) ∧
    (cleanFS (.dir .timeout .ok
        [("a", .file (some 100)), ("b", .dir .timeout .ok [("c", .file (some 200))])]) = true ∧
      (∀ j ≤ 1,
        (nodesAt j (.dir "/" [] 100 [.file "a" ["a"] 100, .dir "b" ["b"] 0 []])).length
          = (fsNodesAt j (.dir .timeout .ok
              [("a", .file (some 100)),
               ("b", .dir .timeout .ok [("c", .file (some 200))])])).length)) := by
  obtain ⟨h1, h2, h3⟩ := C4_depth_cutoff_policy
  refine ⟨⟨Nat.le_refl 1, h1 .timeout .permissionError [("z", .file (some 3))] [] 1 1
      (Nat.le_refl 1)⟩, ⟨rfl, ?_⟩, ⟨rfl, ?_⟩⟩
  · exact h2 (.dir .timeout .ok
      [("a", .file (some 100)), ("b", .dir .timeout .ok [("c", .file (some 200))])])
      [] 1 0 _ rfl
  · exact h3 (.dir .timeout .ok
      [("a", .file (some 100)), ("b", .dir .timeout .ok [("c", .file (some 200))])])
      [] 1 _ rfl rfl

end DiskAnalyzer
